import Mathlib

/-!
Verification of the command parser, job registry, built-in dispatcher and
process-lifecycle loop of a small UNIX shell (src/shell.c), as a shallow
embedding in Lean.  Input lines are modelled as lists of byte values
(`List Nat`); the byte one past the end of a line reads as 0, matching the
NUL terminator that getline guarantees.  Machine integers that the program
never overflows (pids, error codes) are modelled as `Int`; sizes as `Nat`.
-/

/-- C isprint in the portable locale: bytes 0x20 .. 0x7E. -/
def isprintB (c : Nat) : Bool := decide (32 ≤ c ∧ c ≤ 126)

/-- C isspace in the portable locale: space 0x20 and 0x09 .. 0x0D. -/
def isspaceB (c : Nat) : Bool := decide (c = 32 ∨ (9 ≤ c ∧ c ≤ 13))

/-- Classification outcomes of gen_command (shell.c lines 96-101). -/
inductive CommandType
  | FAIL
  | SPACES
  | FOREGROUND
  | BACKGROUND
deriving DecidableEq

/-- The observable command structure (shell.c lines 90-93): the program name
and the argument vector up to its NULL sentinel. -/
structure Command where
  cmd : List Nat
  argv : List (List Nat)
deriving DecidableEq

/-- First scan of gen_command (shell.c lines 111-123), written structurally:
at position i the code reads line[i] (the list head) and line[i+1] (the head
of the tail, 0 past the end).  It fails on a byte that is neither printable
nor whitespace, stops at the first ampersand (byte 38) marking the command
background, and otherwise counts token ends.  Returns none for FAIL, else
the pair (num_args, is_background). -/
def scan1 : List Nat → Nat → Option (Nat × Bool)
  | [], acc => some (acc, false)
  | c :: rest, acc =>
    if ¬ isprintB c ∧ ¬ isspaceB c then none
    else if c = 38 then some (acc, true)
    else if (isspaceB (rest.headD 0) ∨ rest.headD 0 = 0) ∧ ¬ isspaceB c then
      scan1 rest (acc + 1)
    else
      scan1 rest acc

/-- Second scan of gen_command (shell.c lines 133-146), written structurally.
The accumulator cur holds the bytes line[start .. i-1], where start is the
index variable of the C code: it is reset to i+1 on a space-to-nonspace
transition and left unchanged otherwise.  A token ends at a non-space byte
whose successor is space or NUL; the emitted token is
strndup(&line[start], i-start+1), which stops at an embedded NUL, hence the
takeWhile.  The scan runs over the whole line: it does not stop at an
ampersand. -/
def scan2 : List Nat → List Nat → List (List Nat)
  | [], _ => []
  | c :: rest, cur =>
    if isspaceB c ∧ ¬ isspaceB (rest.headD 0) then
      scan2 rest []
    else if ¬ isspaceB c ∧ (isspaceB (rest.headD 0) ∨ rest.headD 0 = 0) then
      ((cur ++ [c]).takeWhile (fun b => b != 0)) :: scan2 rest (cur ++ [c])
    else
      scan2 rest (cur ++ [c])

/-- gen_command (shell.c lines 104-150).  The first scan classifies the line
and counts num_args; zero tokens yield SPACES with no Command.  Otherwise the
code allocates num_args + 2 argv slots, the second scan stores every token of
the whole line at successive slots, and finally argv[num_args] is set to
NULL.  The observable argv, traversed up to that sentinel, is therefore the
first num_args tokens of the second scan; cmd is the token stored at
count 0. -/
def gen_command (line : List Nat) : CommandType × Option Command :=
  match scan1 line 0 with
  | none => (CommandType.FAIL, none)
  | some (numArgs, isBg) =>
    if numArgs = 0 then (CommandType.SPACES, none)
    else
      let toks := scan2 line []
      ((if isBg then CommandType.BACKGROUND else CommandType.FOREGROUND),
        some { cmd := toks.headD [], argv := toks.take numArgs })

/-- Number of argv slots gen_command allocates for a line it accepts
(shell.c line 130): num_args + 2. -/
def argvSlots (line : List Nat) : Nat :=
  match scan1 line 0 with
  | none => 0
  | some (numArgs, _) => if numArgs = 0 then 0 else numArgs + 2

/-- The sequence of argv indices gen_command writes for a line it accepts:
the second scan stores token number count at argv[count] for every token of
the whole line (shell.c line 143), and afterwards argv[num_args] is set to
NULL (line 147). -/
def argvWriteIndices (line : List Nat) : List Nat :=
  match scan1 line 0 with
  | none => []
  | some (numArgs, _) =>
    if numArgs = 0 then []
    else List.range (scan2 line []).length ++ [numArgs]

/-- Reference tokenizer following the words of the specification: the maximal
whitespace-free runs of a byte sequence, in order.  Used only to compare the
scans of the source against the vocabulary of the spec. -/
def specTokensGo : List Nat → List Nat → List (List Nat)
  | cur, [] => if cur = [] then [] else [cur]
  | cur, c :: rest =>
    if isspaceB c then
      if cur = [] then specTokensGo [] rest else cur :: specTokensGo [] rest
    else
      specTokensGo (cur ++ [c]) rest

/-- Reference tokenizer entry point: maximal whitespace-free runs. -/
def specTokens (l : List Nat) : List (List Nat) := specTokensGo [] l

/-- A background job (shell.c lines 11-14): a pid and a display name. -/
structure Job where
  pid : Int
  name : List Nat
deriving DecidableEq

/-- The registry backing store (shell.c lines 17-21): capacity field and the
logical prefix of live jobs (slots at index at least len are never read, so
the model keeps only the live prefix; len is the length of that list). -/
structure ChildJobs where
  cap : Nat
  jobs : List Job
deriving DecidableEq

/-- The global child_jobs pointer: none models the NULL initial state. -/
def Registry := Option ChildJobs

instance : DecidableEq Registry := by
  unfold Registry
  infer_instance

/-- add_job (shell.c lines 54-75): allocate the table with capacity 4 on
first use, grow the capacity by 4 when len reaches it, then append a copy of
the job (strdup of the name is a value copy here). -/
def add_job (j : Job) (r : Registry) : Registry :=
  let cj : ChildJobs :=
    match r with
    | none => { cap := 4, jobs := [] }
    | some cj => cj
  let cj2 := if cj.jobs.length ≥ cj.cap then { cj with cap := cj.cap + 4 } else cj
  some { cj2 with jobs := cj2.jobs ++ [{ pid := j.pid, name := j.name }] }

/-- find_job_by_pid (shell.c lines 41-51): NULL and empty registries yield no
match, otherwise the first slot with the given pid. -/
def find_job_by_pid (p : Int) (r : Registry) : Option Job :=
  match r with
  | none => none
  | some cj => cj.jobs.find? (fun j => j.pid == p)

/-- The scan loop of free_job_by_pid (shell.c lines 26-36), with fuel equal
to the remaining iterations: the loop bound len is cached at entry, so at a
step with fuel n+1 and position i the cached len is i + n + 1 and the swap
source index len - 1 is i + n.  On a match the slot is overwritten with the
slot at the cached last index unless it is that slot (i < len - 1), the
logical length llen is decremented, and the loop continues.  Returns the
final array and logical length. -/
def freeLoop (p : Int) : Nat → List Job → Nat → Nat → List Job × Nat
  | 0, arr, _, llen => (arr, llen)
  | Nat.succ n, arr, i, llen =>
    let cur := arr.getD i { pid := 0, name := [] }
    if cur.pid = p then
      let arr2 :=
        if 0 < n then arr.set i (arr.getD (i + n) { pid := 0, name := [] }) else arr
      freeLoop p n arr2 (i + 1) (llen - 1)
    else
      freeLoop p n arr (i + 1) llen

/-- free_job_by_pid (shell.c lines 24-38): guarded on a non-NULL, non-empty
registry; runs the scan loop and keeps the prefix of the resulting array up
to the new logical length (slots beyond it are dead storage). -/
def free_job_by_pid (p : Int) (r : Registry) : Registry :=
  match r with
  | none => none
  | some cj =>
    if 0 < cj.jobs.length then
      let res := freeLoop p cj.jobs.length cj.jobs 0 cj.jobs.length
      some { cj with jobs := res.1.take res.2 }
    else some cj

/-- Built-in dispatch results (shell.c lines 164-172). -/
inductive BuiltIn
  | EXIT
  | PID
  | PPID
  | CD
  | PWD
  | JOBS
  | NOT
deriving DecidableEq

/-- Byte spelling of the built-in name exit. -/
def exitName : List Nat := [101, 120, 105, 116]

/-- Byte spelling of the built-in name pid. -/
def pidName : List Nat := [112, 105, 100]

/-- Byte spelling of the built-in name ppid. -/
def ppidName : List Nat := [112, 112, 105, 100]

/-- Byte spelling of the built-in name cd. -/
def cdName : List Nat := [99, 100]

/-- Byte spelling of the built-in name pwd. -/
def pwdName : List Nat := [112, 119, 100]

/-- Byte spelling of the built-in name jobs. -/
def jobsName : List Nat := [106, 111, 98, 115]

/-- The name comparisons of run_built_in (shell.c lines 175-233), in source
order; the cd case additionally requires argv[0] to equal cd.  The side
effects of the individual built-ins are modelled separately. -/
def run_built_in_kind (c : Command) : BuiltIn :=
  if c.cmd = exitName then BuiltIn.EXIT
  else if c.cmd = pidName then BuiltIn.PID
  else if c.cmd = ppidName then BuiltIn.PPID
  else if c.cmd = cdName ∧ c.argv.headD [] = cdName then BuiltIn.CD
  else if c.cmd = pwdName then BuiltIn.PWD
  else if c.cmd = jobsName then BuiltIn.JOBS
  else BuiltIn.NOT

/-- Wait status of a child, at the abstraction level of the four WIF tests
the code performs (shell.c lines 304-312 and 334-342). -/
inductive WStatus
  | exited (code : Nat)
  | signaled (sig : Nat)
  | stopped (sig : Nat)
  | continued
deriving DecidableEq

/-- One status line printed for a reaped child. -/
inductive Report
  | exited (pid : Int) (name : List Nat) (code : Nat)
  | killed (pid : Int) (name : List Nat) (sig : Nat)
  | stopped (pid : Int) (name : List Nat) (sig : Nat)
  | continued (pid : Int) (name : List Nat)
deriving DecidableEq

/-- The four-way report the sweep prints for a terminated child (shell.c
lines 334-342). -/
def reportOf (p : Int) (name : List Nat) : WStatus → Report
  | WStatus.exited code => Report.exited p name code
  | WStatus.signaled sig => Report.killed p name sig
  | WStatus.stopped sig => Report.stopped p name sig
  | WStatus.continued => Report.continued p name

/-- One step of the reaping sweep (shell.c lines 330-345) for one child pid
that waitpid returned with a status: if the pid is registered its outcome is
reported and the entry removed, otherwise nothing happens. -/
def sweepStep (r : Registry) (child : Int × WStatus) : Registry × List Report :=
  match find_job_by_pid child.1 r with
  | some j => (free_job_by_pid child.1 r, [reportOf child.1 j.name child.2])
  | none => (r, [])

/-- The whole sweep of one loop iteration: waitpid with WNOHANG is modelled
by the list of children that have already changed state; the loop consumes
exactly those and never waits for a live child. -/
def sweep (r : Registry) (terminated : List (Int × WStatus)) :
    Registry × List Report :=
  terminated.foldl
    (fun acc ch =>
      let step := sweepStep acc.1 ch
      (step.1, acc.2 ++ step.2))
    (r, [])

/-- Working-directory state of the shell process. -/
structure DirState where
  cwd : List Nat
deriving DecidableEq

/-- Modelled from the spec: the POSIX chdir contract used by the cd built-in
(chdir itself is not part of src/).  It succeeds exactly on a path the
file-system predicate accepts, and on failure returns -1 and leaves the
working directory unchanged. -/
def chdirModel (fs : List Nat → Bool) (path : List Nat) (st : DirState) :
    Int × DirState :=
  if fs path then (0, { cwd := path }) else (-1, st)

/-- The cd branch of run_built_in (shell.c lines 194-208): chdir to argv[1]
if present, else to the HOME directory; a failure is reported (the Bool) and
the built-in returns normally either way. -/
def run_cd (home : List Nat) (fs : List Nat → Bool) (c : Command)
    (st : DirState) : DirState × Bool :=
  let r :=
    match c.argv.get? 1 with
    | some a => chdirModel fs a st
    | none => chdirModel fs home st
  (r.2, r.1 != 0)

/-- The jobs branch of run_built_in (shell.c lines 222-229).  The code reads
child_jobs->len with no NULL guard, unlike find_job_by_pid and
free_job_by_pid; dereferencing the absent registry has no defined value, so
the result is an Option and the NULL case is none. -/
def run_jobs (r : Registry) : Option (List (Int × List Nat)) :=
  match r with
  | none => none
  | some cj => some (cj.jobs.map (fun j => (j.pid, j.name)))

/-- One observable event of the driving loop: either getline fails, or a
line is read (with whether a fork attempted for it would succeed). -/
inductive Event
  | readFail
  | inputLine (bytes : List Nat) (forkOk : Bool)

/-- The driving loop of main (shell.c lines 256-347) restricted to its error
variable and exit decision.  A failed read sets error to -1 and continues; a
parse failure sets -2 and continues; a blank line is skipped; the exit
built-in leaves the loop and the process returns the current error value;
any other built-in continues; otherwise a fork is attempted and its failure
sets error to -3.  The function returns the process exit status if the
session ends through the exit built-in, and none if the event list runs out
with the loop still live. -/
def runShell : Int → List Event → Option Int
  | _, [] => none
  | _, Event.readFail :: rest => runShell (-1) rest
  | err, Event.inputLine l fk :: rest =>
    match gen_command l with
    | (CommandType.FAIL, _) => runShell (-2) rest
    | (CommandType.SPACES, _) => runShell err rest
    | (_, none) => runShell err rest
    | (_, some c) =>
      match run_built_in_kind c with
      | BuiltIn.EXIT => some err
      | BuiltIn.NOT => if fk then runShell err rest else runShell (-3) rest
      | _ => runShell err rest

/-- Startup argument validation plus the loop (shell.c lines 247-253 and
358-367): any argc other than 1 or 3 prints a usage message and jumps to the
exit label, returning the error variable, which still holds its initial
value 0. -/
def shellMain (argc : Nat) (events : List Event) : Option Int :=
  if argc ≠ 1 ∧ argc ≠ 3 then some 0 else runShell 0 events

/-- Whether one loop iteration reaches fork (shell.c line 289): a failed
read, a parse failure, a blank line and every recognized built-in all skip
process creation. -/
def iterationForks (readRes : Option (List Nat)) : Bool :=
  match readRes with
  | none => false
  | some l =>
    match gen_command l with
    | (CommandType.FAIL, _) => false
    | (CommandType.SPACES, _) => false
    | (_, none) => false
    | (_, some c) => run_built_in_kind c = BuiltIn.NOT

/-! Helper lemmas about the first scan. -/

/-- The first scan passes over whitespace bytes without failing, stopping or
counting. -/
theorem scan1_sp_skip (w : List Nat) : ∀ (rest : List Nat) (acc : Nat),
    (∀ c ∈ w, isspaceB c = true) → scan1 (w ++ rest) acc = scan1 rest acc := by
  induction w with
  | nil => intro rest acc _; rfl
  | cons c w ih =>
    intro rest acc h
    have hc : isspaceB c = true := h c (List.mem_cons_self c w)
    have hc38 : c ≠ 38 := by rintro rfl; simp [isspaceB] at hc
    have hrest : ∀ d ∈ w, isspaceB d = true := fun d hd =>
      h d (List.mem_cons_of_mem c hd)
    simp only [List.cons_append, scan1]
    rw [if_neg (by simp [hc]), if_neg hc38, if_neg (by simp [hc])]
    exact ih rest acc hrest

/-- If some byte of the line is neither printable nor whitespace and no
ampersand occurs strictly before it, the first scan fails. -/
theorem scan1_none_of_bad : ∀ (l : List Nat) (j : Nat) (acc : Nat),
    j < l.length → isprintB (l.getD j 0) = false →
    isspaceB (l.getD j 0) = false →
    (∀ k, k < j → l.getD k 0 ≠ 38) → scan1 l acc = none := by
  intro l
  induction l with
  | nil => intro j acc hj _ _ _; exact absurd hj (by simp)
  | cons c rest ih =>
    intro j acc hj hp hs hamp
    cases j with
    | zero =>
      simp only [List.getD_cons_zero] at hp hs
      simp [scan1, hp, hs]
    | succ j =>
      have h38 : c ≠ 38 := by
        have h0 := hamp 0 (Nat.succ_pos j)
        simpa using h0
      simp only [List.getD_cons_succ] at hp hs
      have hj2 : j < rest.length := by simpa using hj
      have hamp2 : ∀ k, k < j → rest.getD k 0 ≠ 38 := by
        intro k hk
        have hk2 := hamp (k + 1) (Nat.succ_lt_succ hk)
        simpa using hk2
      by_cases hbad : isprintB c = false ∧ isspaceB c = false
      · simp [scan1, hbad.1, hbad.2]
      · have hcond : ¬ (¬ (isprintB c = true) ∧ ¬ (isspaceB c = true)) := by
          intro hct
          exact hbad ⟨by simpa using hct.1, by simpa using hct.2⟩
        have hIH : ∀ a, scan1 rest a = none := fun a => ih j a hj2 hp hs hamp2
        simp only [scan1]
        rw [if_neg hcond, if_neg h38]
        split
        · exact hIH (acc + 1)
        · exact hIH acc

/-- Claim C2 (amended): a line holding a byte that is neither printable nor
whitespace, at a position with no ampersand anywhere before it, is classified
FAIL by gen_command and no Command is produced.  (As originally stated the
claim is false: the first scan stops at the first ampersand, so bad bytes
after it are never examined; see the counterexample.) -/
theorem gen_command_fail_on_bad_byte (l : List Nat) (j : Nat)
    (hj : j < l.length) (hp : isprintB (l.getD j 0) = false)
    (hs : isspaceB (l.getD j 0) = false)
    (hamp : ∀ k, k < j → l.getD k 0 ≠ 38) :
    gen_command l = (CommandType.FAIL, none) := by
  have h := scan1_none_of_bad l j 0 hj hp hs hamp
  simp [gen_command, h]

/-- Witness for the amended C2 theorem at the concrete line 0x01 0x0A. -/
theorem gen_command_fail_on_bad_byte_witness :
    gen_command [1, 10] = (CommandType.FAIL, none) :=
  gen_command_fail_on_bad_byte [1, 10] 0 (by decide) (by decide) (by decide)
    (fun k hk => absurd hk (Nat.not_lt_zero k))

/-- Claim C2 counterexample: the line "a &\x01\n" contains the non-printable,
non-whitespace byte 0x01, yet gen_command classifies it BACKGROUND and builds
a Command, because the first scan stops at the ampersand before reaching the
bad byte. -/
theorem gen_command_bad_after_amp_counterexample :
    gen_command [97, 32, 38, 1, 10] =
      (CommandType.BACKGROUND, some { cmd := [97], argv := [[97]] }) ∧
    CommandType.BACKGROUND ≠ CommandType.FAIL := by decide

/-- Claim C1 counterexample: both lines have trailing non-space token exactly
the ampersand, preceded by at least one other token, yet neither is
classified BACKGROUND.  On "a&b &\n" the first scan stops at the ampersand
embedded in the first token before completing any token count, giving
SPACES; on the line "a", 0x01, "&" the byte 0x01 before the marker gives
FAIL. -/
theorem background_trailing_amp_counterexample :
    gen_command [97, 38, 98, 32, 38, 10] = (CommandType.SPACES, none) ∧
    gen_command [97, 32, 1, 32, 38, 10] = (CommandType.FAIL, none) ∧
    CommandType.SPACES ≠ CommandType.BACKGROUND := by decide

/-- Claim C3: evaluation of the exit-status model at the failing inputs.  A
malformed invocation (argc = 2) leaves the loop through the usage check with
the error variable still 0, so the process exit status is zero, not a
distinct nonzero code; and because the error variable is never reset, a
clean shutdown through the exit built-in after a recovered parse failure
returns -2 instead of zero.  The third conjunct shows the clean-session exit
status 0 for contrast. -/
theorem exit_status_bug :
    shellMain 2 [] = some 0 ∧
    runShell 0 [Event.inputLine [1, 10] true,
      Event.inputLine [101, 120, 105, 116, 10] true] = some (-2) ∧
    runShell 0 [Event.inputLine [101, 120, 105, 116, 10] true] = some 0 := by
  decide

/-- Claim C9: evaluation at the failing input "ls & a b\n".  The first scan
stops at the ampersand after counting one token, so 1 + 2 = 3 argv slots are
allocated, but the second scan stores a pointer for every token of the whole
line, writing argv[0] .. argv[3]; index 3 is outside the 3-slot
allocation. -/
theorem argv_write_out_of_bounds :
    argvSlots [108, 115, 32, 38, 32, 97, 32, 98, 10] = 3 ∧
    argvWriteIndices [108, 115, 32, 38, 32, 97, 32, 98, 10] = [0, 1, 2, 3, 1] ∧
    ∃ i ∈ argvWriteIndices [108, 115, 32, 38, 32, 97, 32, 98, 10],
      argvSlots [108, 115, 32, 38, 32, 97, 32, 98, 10] ≤ i := by decide

/-- Claim C10: the jobs built-in reads child_jobs->len without the NULL
guard that find_job_by_pid and free_job_by_pid perform, so invoking jobs
before any background command registers the lazily created table
dereferences a null pointer (modelled as the none result) instead of
reporting zero entries; the sibling operations on the same global are
guarded and return harmlessly. -/
theorem jobs_builtin_null_deref :
    run_jobs none = none ∧
    find_job_by_pid 5 none = none ∧
    free_job_by_pid 5 none = none ∧
    run_jobs (some { cap := 4, jobs := [] }) = some [] := by decide

/-- Claim C5: a line that is empty or all whitespace, or that holds only a
background marker surrounded by whitespace with no preceding token, is
classified SPACES by gen_command (the zero token count is checked before the
background flag), no Command is produced, and the driving loop skips process
creation for it. -/
theorem blank_line_spaces_no_launch (l : List Nat)
    (h : (∀ c ∈ l, isspaceB c = true) ∨
      ∃ w0 w1, l = w0 ++ 38 :: w1 ∧ (∀ c ∈ w0, isspaceB c = true) ∧
        (∀ c ∈ w1, isspaceB c = true)) :
    gen_command l = (CommandType.SPACES, none) ∧
      iterationForks (some l) = false := by
  have hsc : scan1 l 0 = some (0, false) ∨ scan1 l 0 = some (0, true) := by
    rcases h with hall | ⟨w0, w1, rfl, h0, _⟩
    · left
      have hskip := scan1_sp_skip l [] 0 hall
      simpa using hskip
    · right
      rw [scan1_sp_skip w0 (38 :: w1) 0 h0]
      simp [scan1, isprintB]
  have hgen : gen_command l = (CommandType.SPACES, none) := by
    rcases hsc with h1 | h1 <;> simp [gen_command, h1]
  refine ⟨hgen, ?_⟩
  simp [iterationForks, hgen]

/-- Witness for the C5 theorem at the concrete line " &\n". -/
theorem blank_line_spaces_no_launch_witness :
    gen_command [32, 38, 10] = (CommandType.SPACES, none) ∧
      iterationForks (some [32, 38, 10]) = false :=
  blank_line_spaces_no_launch [32, 38, 10]
    (Or.inr ⟨[32], [10], rfl, by decide, by decide⟩)

/-! Helper lemmas about the registry scan loop. -/

/-- Reading a list with a default at an index other than the one written by
set is unchanged. -/
theorem getD_set_of_ne {α : Type} (l : List α) (i j : Nat) (v d : α)
    (h : i ≠ j) : (l.set i v).getD j d = l.getD j d := by
  by_cases hj : j < l.length
  · rw [List.getD_eq_getElem _ _ (by simpa using hj), List.getD_eq_getElem _ _ hj]
    exact List.getElem_set_of_ne h v _
  · rw [List.getD_eq_default _ _ (by simpa using Nat.le_of_not_lt hj),
      List.getD_eq_default _ _ (Nat.le_of_not_lt hj)]

/-- A block of scan-loop steps over non-matching slots changes nothing and
advances the position. -/
theorem freeLoop_skip (p : Int) : ∀ (m fuel : Nat) (arr : List Job)
    (i llen : Nat), m ≤ fuel →
    (∀ k, k < m → (arr.getD (i + k) { pid := 0, name := [] }).pid ≠ p) →
    freeLoop p fuel arr i llen = freeLoop p (fuel - m) arr (i + m) llen := by
  intro m
  induction m with
  | zero => intro fuel arr i llen _ _; simp
  | succ m ih =>
    intro fuel arr i llen hm h
    cases fuel with
    | zero => exact absurd hm (by omega)
    | succ n =>
      have h0 : (arr.getD i { pid := 0, name := [] }).pid ≠ p := by
        have hh := h 0 (Nat.succ_pos m)
        simpa using hh
      have hrec := ih n arr (i + 1) llen (by omega) (fun k hk => by
        rw [show i + 1 + k = i + (k + 1) by omega]
        exact h (k + 1) (by omega))
      simp only [freeLoop]
      rw [if_neg h0, hrec, show n - m = Nat.succ n - Nat.succ m by omega,
        show i + 1 + m = i + Nat.succ m by omega]

/-- If no slot matches, the whole scan loop is the identity on the array and
the logical length. -/
theorem freeLoop_no_match (p : Int) (arr : List Job) (llen : Nat)
    (h : ∀ k, k < arr.length →
      (arr.getD k { pid := 0, name := [] }).pid ≠ p) :
    freeLoop p arr.length arr 0 llen = (arr, llen) := by
  have hh := freeLoop_skip p arr.length arr.length arr 0 llen le_rfl
    (fun k hk => by simpa using h k hk)
  simpa [freeLoop] using hh

/-- With exactly one matching slot, at index k, the scan loop overwrites
that slot with the slot at the cached last index (unless k is that index)
and decrements the logical length exactly once. -/
theorem freeLoop_unique_match (p : Int) (arr : List Job) (k llen : Nat)
    (hk : k < arr.length)
    (hmatch : (arr.getD k { pid := 0, name := [] }).pid = p)
    (hothers : ∀ m, m < arr.length → m ≠ k →
      (arr.getD m { pid := 0, name := [] }).pid ≠ p) :
    freeLoop p arr.length arr 0 llen =
      ((if k < arr.length - 1 then
          arr.set k (arr.getD (arr.length - 1) { pid := 0, name := [] })
        else arr), llen - 1) := by
  have hskip := freeLoop_skip p k arr.length arr 0 llen (le_of_lt hk)
    (fun m hm => by simpa using hothers m (lt_trans hm hk) (by omega))
  rw [hskip]
  obtain ⟨n, hn⟩ : ∃ n, arr.length - k = n + 1 := ⟨arr.length - k - 1, by omega⟩
  have hkn : k + n = arr.length - 1 := by omega
  rw [show (0 : Nat) + k = k by omega, hn]
  simp only [freeLoop]
  rw [if_pos hmatch]
  set arr2 := if 0 < n then arr.set k (arr.getD (k + n) { pid := 0, name := [] })
    else arr with harr2
  have hlen2 : arr2.length = arr.length := by
    rw [harr2]; split <;> simp
  have hrest : ∀ j, j < n →
      (arr2.getD (k + 1 + j) { pid := 0, name := [] }).pid ≠ p := by
    intro j hj
    have hne : k ≠ k + 1 + j := by omega
    have hget : arr2.getD (k + 1 + j) { pid := 0, name := [] } =
        arr.getD (k + 1 + j) { pid := 0, name := [] } := by
      rw [harr2]; split
      · exact getD_set_of_ne arr k (k + 1 + j) _ _ hne
      · rfl
    rw [hget]
    exact hothers (k + 1 + j) (by omega) (by omega)
  have hend := freeLoop_skip p n n arr2 (k + 1) (llen - 1) le_rfl hrest
  rw [hend]
  simp only [Nat.sub_self, freeLoop]
  rw [harr2]
  by_cases h0 : 0 < n
  · rw [if_pos h0, if_pos (by omega : k < arr.length - 1), hkn]
  · rw [if_neg h0, if_neg (by omega : ¬ k < arr.length - 1)]

/-- Writing a slot at or beyond the kept prefix does not change that
prefix. -/
theorem take_set_of_le {α : Type} (l : List α) (k m : Nat) (v : α)
    (h : m ≤ k) : (l.set k v).take m = l.take m := by
  apply List.ext_getElem
  · simp
  · intro i h1 h2
    rw [List.length_take, List.length_set] at h1
    obtain ⟨him, hil⟩ := lt_min_iff.mp h1
    rw [List.getElem_take, List.getElem_take]
    exact List.getElem_set_of_ne (by omega) v (by rw [List.length_set]; exact hil)

/-- Under the unique-pid invariant, every slot other than a matching one
fails the pid comparison. -/
theorem pairwise_pid_others (jobs : List Job) (p : Int) (k : Nat)
    (huniq : jobs.Pairwise (fun a b => a.pid ≠ b.pid))
    (hk : k < jobs.length)
    (hmatch : (jobs.getD k { pid := 0, name := [] }).pid = p) :
    ∀ m, m < jobs.length → m ≠ k →
      (jobs.getD m { pid := 0, name := [] }).pid ≠ p := by
  intro m hm hne
  rw [List.getD_eq_getElem _ _ hm]
  rw [List.getD_eq_getElem _ _ hk] at hmatch
  rw [List.pairwise_iff_getElem] at huniq
  rcases Nat.lt_or_ge m k with h | h
  · have hx := huniq m k hm hk h
    rw [hmatch] at hx
    exact hx
  · have hx := huniq k m hk hm (by omega)
    rw [hmatch] at hx
    exact hx.symm

/-- free_job_by_pid with no matching slot is the identity. -/
theorem free_job_no_match_eq (cj : ChildJobs) (p : Int)
    (h : ∀ j ∈ cj.jobs, j.pid ≠ p) :
    free_job_by_pid p (some cj) = some cj := by
  simp only [free_job_by_pid]
  by_cases hlen : 0 < cj.jobs.length
  · rw [if_pos hlen]
    have hno := freeLoop_no_match p cj.jobs cj.jobs.length (fun k hk => by
      rw [List.getD_eq_getElem _ _ hk]
      exact h _ (List.getElem_mem hk))
    rw [hno]
    simp
  · rw [if_neg hlen]

/-- free_job_by_pid with exactly one matching slot, at index k: the slot is
overwritten with the last live slot and the logical length shrinks by
one. -/
theorem free_job_match_eq (cj : ChildJobs) (p : Int) (k : Nat)
    (hk : k < cj.jobs.length)
    (hmatch : (cj.jobs.getD k { pid := 0, name := [] }).pid = p)
    (hothers : ∀ m, m < cj.jobs.length → m ≠ k →
      (cj.jobs.getD m { pid := 0, name := [] }).pid ≠ p) :
    free_job_by_pid p (some cj) = some { cj with jobs :=
      ((cj.jobs.set k
          (cj.jobs.getD (cj.jobs.length - 1) { pid := 0, name := [] })).take
        (cj.jobs.length - 1)) } := by
  have hloop := freeLoop_unique_match p cj.jobs k cj.jobs.length hk hmatch hothers
  simp only [free_job_by_pid]
  rw [if_pos (by omega), hloop]
  by_cases hcase : k < cj.jobs.length - 1
  · rw [if_pos hcase]
  · rw [if_neg hcase,
      take_set_of_le cj.jobs k (cj.jobs.length - 1) _ (by omega)]

/-- add_job on the NULL registry allocates the table with capacity 4 and a
single entry. -/
theorem add_job_none (j : Job) :
    add_job j none = some { cap := 4, jobs := [{ pid := j.pid, name := j.name }] } := rfl

/-- add_job on an existing registry appends the entry, whether or not the
capacity grows. -/
theorem add_job_some (j : Job) (cj : ChildJobs) :
    ∃ cj2, add_job j (some cj) = some cj2 ∧
      cj2.jobs = cj.jobs ++ [{ pid := j.pid, name := j.name }] := by
  refine ⟨_, rfl, ?_⟩
  by_cases hc : cj.jobs.length ≥ cj.cap <;> simp [add_job, hc]

/-- Removing a freshly appended entry whose pid occurs nowhere else restores
exactly the previous slot sequence. -/
theorem free_append_fresh (jobs0 : List Job) (p : Int) (n : List Nat)
    (cj : ChildJobs)
    (hjobs : cj.jobs = jobs0 ++ [{ pid := p, name := n }])
    (hnone : ∀ j ∈ jobs0, j.pid ≠ p) :
    ∃ cj2, free_job_by_pid p (some cj) = some cj2 ∧ cj2.jobs = jobs0 := by
  have hlen : cj.jobs.length = jobs0.length + 1 := by rw [hjobs]; simp
  have hk : jobs0.length < cj.jobs.length := by omega
  have hmatch : (cj.jobs.getD jobs0.length { pid := 0, name := [] }).pid = p := by
    rw [List.getD_eq_getElem _ _ hk]
    have : cj.jobs[jobs0.length] = { pid := p, name := n } := by
      simp only [hjobs]
      exact List.getElem_concat_length jobs0 _ _ rfl (by simp)
    rw [this]
  have hothers : ∀ m, m < cj.jobs.length → m ≠ jobs0.length →
      (cj.jobs.getD m { pid := 0, name := [] }).pid ≠ p := by
    intro m hm hne
    have hm0 : m < jobs0.length := by omega
    rw [List.getD_eq_getElem _ _ hm]
    have : cj.jobs[m] = jobs0[m] := by
      simp only [hjobs]
      exact List.getElem_append_left hm0
    rw [this]
    exact hnone _ (List.getElem_mem hm0)
  refine ⟨_, free_job_match_eq cj p jobs0.length hk hmatch hothers, ?_⟩
  simp only [hlen, Nat.add_sub_cancel]
  rw [take_set_of_le cj.jobs jobs0.length jobs0.length _ le_rfl, hjobs,
    List.take_left]

/-- A find that already succeeds is preserved by add_job (the new entry is
appended after the first match). -/
theorem find_add_preserved (r : Registry) (q : Int) (jv : Job) (j : Job)
    (h : find_job_by_pid q r = some jv) :
    find_job_by_pid q (add_job j r) = some jv := by
  cases r with
  | none => simp [find_job_by_pid] at h
  | some cj =>
    obtain ⟨cj2, he, hjobs⟩ := add_job_some j cj
    rw [he]
    simp only [find_job_by_pid] at h ⊢
    rw [hjobs, List.find?_append, h]
    rfl

/-- A find that already succeeds is preserved by any sequence of add_job
calls, in particular ones that force the capacity to grow. -/
theorem find_fold_add_preserved (q : Int) (jv : Job) :
    ∀ (js : List Job) (r : Registry), find_job_by_pid q r = some jv →
      find_job_by_pid q (js.foldl (fun a j => add_job j a) r) = some jv := by
  intro js
  induction js with
  | nil => intro r h; simpa using h
  | cons j js ih =>
    intro r h
    exact ih _ (find_add_preserved r q jv j h)

/-- Claim C6: under the unique-pid invariant, free_job_by_pid on a matching
entry overwrites the removed slot with the last live slot, shrinks the
logical length by exactly one, and (the observable shadow of releasing the
name) drops that entry from the registry; with no matching entry the
registry, its length and every entry included, is unchanged. -/
theorem free_job_by_pid_spec (cj : ChildJobs) (p : Int)
    (huniq : cj.jobs.Pairwise (fun a b => a.pid ≠ b.pid)) :
    ((∀ j ∈ cj.jobs, j.pid ≠ p) → free_job_by_pid p (some cj) = some cj) ∧
    (∀ k, k < cj.jobs.length →
      (cj.jobs.getD k { pid := 0, name := [] }).pid = p →
      free_job_by_pid p (some cj) = some { cj with jobs :=
        ((cj.jobs.set k
            (cj.jobs.getD (cj.jobs.length - 1) { pid := 0, name := [] })).take
          (cj.jobs.length - 1)) } ∧
      (∀ cj2, free_job_by_pid p (some cj) = some cj2 →
        cj2.jobs.length = cj.jobs.length - 1)) := by
  constructor
  · exact free_job_no_match_eq cj p
  · intro k hk hm
    have heq := free_job_match_eq cj p k hk hm
      (pairwise_pid_others cj.jobs p k huniq hk hm)
    refine ⟨heq, ?_⟩
    intro cj2 h2
    rw [heq] at h2
    have h3 := Option.some.inj h2
    rw [← h3]
    simp only [List.length_take, List.length_set]
    omega

/-- Witness for the C6 theorem: removing pid 1 from a three-entry registry
moves the last entry into slot 0 and shrinks the length to 2; removing the
absent pid 9 changes nothing. -/
theorem free_job_by_pid_spec_witness :
    (free_job_by_pid 9 (some { cap := 4, jobs :=
        [{ pid := 1, name := [97] }, { pid := 2, name := [98] },
          { pid := 3, name := [99] }] }) =
      some { cap := 4, jobs :=
        [{ pid := 1, name := [97] }, { pid := 2, name := [98] },
          { pid := 3, name := [99] }] }) ∧
    (free_job_by_pid 1 (some { cap := 4, jobs :=
        [{ pid := 1, name := [97] }, { pid := 2, name := [98] },
          { pid := 3, name := [99] }] }) =
      some { cap := 4, jobs :=
        [{ pid := 3, name := [99] }, { pid := 2, name := [98] }] }) := by
  constructor
  · exact (free_job_by_pid_spec _ 9 (by decide)).1 (by decide)
  · exact (((free_job_by_pid_spec
      { cap := 4, jobs := [{ pid := 1, name := [97] }, { pid := 2, name := [98] },
        { pid := 3, name := [99] }] } 1 (by decide)).2) 0 (by decide) (by decide)).1

/-- Claim C4: for every registry state and pid p not currently present,
add(p, n) then find(p) returns the job named n; a subsequent remove(p) makes
find(p) return no match; and any further sequence of adds, in particular one
long enough to force the capacity growth, leaves the previously added pair
intact and findable. -/
theorem registry_add_find_remove (r : Registry) (p : Int) (n : List Nat)
    (js : List Job) (h : find_job_by_pid p r = none) :
    find_job_by_pid p (add_job { pid := p, name := n } r) =
      some { pid := p, name := n } ∧
    find_job_by_pid p
      (free_job_by_pid p (add_job { pid := p, name := n } r)) = none ∧
    find_job_by_pid p (js.foldl (fun a j => add_job j a)
      (add_job { pid := p, name := n } r)) = some { pid := p, name := n } := by
  have hfind : find_job_by_pid p (add_job { pid := p, name := n } r) =
      some { pid := p, name := n } := by
    cases r with
    | none =>
      rw [add_job_none]
      simp [find_job_by_pid, List.find?]
    | some cj =>
      simp only [find_job_by_pid] at h
      obtain ⟨cj2, he, hjobs⟩ := add_job_some { pid := p, name := n } cj
      rw [he]
      simp only [find_job_by_pid]
      rw [hjobs, List.find?_append, h]
      simp [List.find?]
  refine ⟨hfind, ?_, find_fold_add_preserved p _ js _ hfind⟩
  have hfresh : ∀ jobs0 : List Job, (∀ j ∈ jobs0, j.pid ≠ p) →
      ∀ cj, cj.jobs = jobs0 ++ [{ pid := p, name := n }] →
      find_job_by_pid p (free_job_by_pid p (some cj)) = none := by
    intro jobs0 h0 cj hjobs
    obtain ⟨cj2, he2, hjobs2⟩ := free_append_fresh jobs0 p n cj hjobs h0
    rw [he2]
    simp only [find_job_by_pid]
    rw [hjobs2, List.find?_eq_none]
    intro x hx
    simp only [beq_iff_eq]
    exact h0 x hx
  cases r with
  | none =>
    rw [add_job_none]
    exact hfresh [] (by simp) _ (by simp)
  | some cj =>
    simp only [find_job_by_pid] at h
    obtain ⟨cj2, he, hjobs⟩ := add_job_some { pid := p, name := n } cj
    rw [he]
    refine hfresh cj.jobs ?_ cj2 hjobs
    rw [List.find?_eq_none] at h
    intro j hj
    have hx := h j hj
    simpa using hx

/-- Witness for the C4 theorem: pid 9 is fresh for a one-entry registry;
five further adds push the length past the initial capacity 4, forcing
growth, and pid 9 remains findable with its name. -/
theorem registry_add_find_remove_witness :
    find_job_by_pid 9 (add_job { pid := 9, name := [120] }
      (some { cap := 4, jobs := [{ pid := 7, name := [97] }] })) =
      some { pid := 9, name := [120] } ∧
    find_job_by_pid 9 (free_job_by_pid 9 (add_job { pid := 9, name := [120] }
      (some { cap := 4, jobs := [{ pid := 7, name := [97] }] }))) = none ∧
    find_job_by_pid 9 (([{ pid := 1, name := [] }, { pid := 2, name := [] },
        { pid := 3, name := [] }, { pid := 4, name := [] },
        { pid := 5, name := [] }] : List Job).foldl (fun a j => add_job j a)
      (add_job { pid := 9, name := [120] }
        (some { cap := 4, jobs := [{ pid := 7, name := [97] }] }))) =
      some { pid := 9, name := [120] } :=
  registry_add_find_remove
    (some { cap := 4, jobs := [{ pid := 7, name := [97] }] }) 9 [120]
    [{ pid := 1, name := [] }, { pid := 2, name := [] },
      { pid := 3, name := [] }, { pid := 4, name := [] },
      { pid := 5, name := [] }] (by decide)

/-- The slot sequence left by a unique-match removal holds exactly the
entries of the original registry whose pid differs from the removed one. -/
theorem swap_remove_mem (jobs : List Job) (p : Int) (k : Nat)
    (hk : k < jobs.length)
    (hmatch : (jobs.getD k { pid := 0, name := [] }).pid = p)
    (hothers : ∀ m, m < jobs.length → m ≠ k →
      (jobs.getD m { pid := 0, name := [] }).pid ≠ p) (x : Job) :
    (x ∈ (jobs.set k
        (jobs.getD (jobs.length - 1) { pid := 0, name := [] })).take
        (jobs.length - 1)) ↔ (x ∈ jobs ∧ x.pid ≠ p) := by
  have hlast : jobs.length - 1 < jobs.length := by omega
  have hgetD : ∀ m (hm : m < jobs.length),
      jobs.getD m { pid := 0, name := [] } = jobs[m] :=
    fun m hm => List.getD_eq_getElem _ _ hm
  constructor
  · intro hx
    obtain ⟨m, hm, hxm⟩ := List.mem_iff_getElem.mp hx
    have hmlen : m < jobs.length - 1 := by
      simp only [List.length_take, List.length_set] at hm
      omega
    rw [List.getElem_take, List.getElem_set] at hxm
    by_cases hkm : k = m
    · rw [if_pos hkm] at hxm
      refine ⟨?_, ?_⟩
      · rw [← hxm, hgetD _ hlast]
        exact List.getElem_mem hlast
      · rw [← hxm]
        exact hothers (jobs.length - 1) hlast (by omega)
    · rw [if_neg hkm] at hxm
      refine ⟨?_, ?_⟩
      · rw [← hxm]
        exact List.getElem_mem (by omega)
      · rw [← hxm, ← hgetD m (by omega)]
        exact hothers m (by omega) (fun he => hkm he.symm)
  · rintro ⟨hxmem, hxp⟩
    obtain ⟨m, hm, hxm⟩ := List.mem_iff_getElem.mp hxmem
    have hmk : m ≠ k := by
      intro he
      subst he
      rw [hgetD m hm] at hmatch
      rw [hxm] at hmatch
      exact hxp hmatch
    rw [List.mem_iff_getElem]
    by_cases hmlast : m < jobs.length - 1
    · refine ⟨m, by simp only [List.length_take, List.length_set]; omega, ?_⟩
      rw [List.getElem_take, List.getElem_set, if_neg (fun h => hmk h.symm), hxm]
    · have hme : m = jobs.length - 1 := by omega
      have hklast : k < jobs.length - 1 := by omega
      refine ⟨k, by simp only [List.length_take, List.length_set]; omega, ?_⟩
      rw [List.getElem_take, List.getElem_set, if_pos rfl, hgetD _ hlast]
      subst hme
      exact hxm

/-- Claim C7: the per-iteration sweep consumes exactly the children that
have already changed state and is the identity when there are none (the
WNOHANG wait returns no pid and the loop body never runs, so nothing
blocks); for a terminated child whose pid is registered, under the
unique-pid invariant, the sweep emits exactly the four-way report for the
outcome and removes the entry (a later lookup of the pid fails, the length
shrinks by one, and exactly the entries with other pids remain); for an
unregistered pid it prints nothing and the registry is untouched. -/
theorem sweep_step_spec (cj : ChildJobs) (p : Int) (s : WStatus)
    (huniq : cj.jobs.Pairwise (fun a b => a.pid ≠ b.pid)) :
    (sweep (some cj) [] = (some cj, [])) ∧
    (find_job_by_pid p (some cj) = none →
      sweepStep (some cj) (p, s) = (some cj, [])) ∧
    (∀ j, find_job_by_pid p (some cj) = some j →
      (sweepStep (some cj) (p, s)).2 = [reportOf p j.name s] ∧
      find_job_by_pid p (sweepStep (some cj) (p, s)).1 = none ∧
      (∃ cj2, (sweepStep (some cj) (p, s)).1 = some cj2 ∧
        cj2.jobs.length = cj.jobs.length - 1 ∧
        (∀ x, x ∈ cj2.jobs ↔ (x ∈ cj.jobs ∧ x.pid ≠ p)))) := by
  refine ⟨rfl, ?_, ?_⟩
  · intro h
    simp [sweepStep, h]
  · intro j hfind
    have hstep : sweepStep (some cj) (p, s) =
        (free_job_by_pid p (some cj), [reportOf p j.name s]) := by
      simp [sweepStep, hfind]
    have hfind2 : cj.jobs.find? (fun x => x.pid == p) = some j := hfind
    have hmem := List.mem_of_find?_eq_some hfind2
    have hjp : j.pid = p := by
      have hx := List.find?_some hfind2
      simpa using hx
    obtain ⟨k, hk, hjk⟩ := List.mem_iff_getElem.mp hmem
    have hmatch : (cj.jobs.getD k { pid := 0, name := [] }).pid = p := by
      rw [List.getD_eq_getElem _ _ hk, hjk, hjp]
    have hothers := pairwise_pid_others cj.jobs p k huniq hk hmatch
    have heq := free_job_match_eq cj p k hk hmatch hothers
    refine ⟨by rw [hstep], ?_, ?_⟩
    · rw [hstep]
      simp only [heq, find_job_by_pid]
      rw [List.find?_eq_none]
      intro x hx
      have hxp := ((swap_remove_mem cj.jobs p k hk hmatch hothers x).mp hx).2
      simpa using hxp
    · refine ⟨_, by rw [hstep, heq], ?_, ?_⟩
      · simp only [List.length_take, List.length_set]
        omega
      · intro x
        exact swap_remove_mem cj.jobs p k hk hmatch hothers x

/-- Witness for the C7 theorem: reaping registered pid 1 emits its exit
report and empties its slot; the unregistered pid 5 leaves the two-entry
registry untouched with no report. -/
theorem sweep_step_spec_witness :
    ((sweepStep (some { cap := 4, jobs := [{ pid := 1, name := [97] },
        { pid := 2, name := [98] }] }) (1, WStatus.exited 0)).2 =
      [Report.exited 1 [97] 0] ∧
      find_job_by_pid 1 (sweepStep (some { cap := 4, jobs :=
          [{ pid := 1, name := [97] }, { pid := 2, name := [98] }] })
        (1, WStatus.exited 0)).1 = none) ∧
    sweepStep (some { cap := 4, jobs := [{ pid := 1, name := [97] },
        { pid := 2, name := [98] }] }) (5, WStatus.signaled 9) =
      (some { cap := 4, jobs := [{ pid := 1, name := [97] },
        { pid := 2, name := [98] }] }, []) := by
  constructor
  · have h := (sweep_step_spec { cap := 4, jobs := [{ pid := 1, name := [97] },
        { pid := 2, name := [98] }] } 1 (WStatus.exited 0) (by decide)).2.2
        { pid := 1, name := [97] } (by decide)
    exact ⟨h.1, h.2.1⟩
  · exact (sweep_step_spec { cap := 4, jobs := [{ pid := 1, name := [97] },
        { pid := 2, name := [98] }] } 5 (WStatus.signaled 9) (by decide)).2.1
      (by decide)

/-- Claim C8: for a Command whose program name and argv[0] both read cd:
with no argument the working directory becomes the HOME directory (when that
path exists); with an argument naming a nonexistent path the failure is
reported, the working directory is left unchanged, and because the dispatch
result is CD (not EXIT) the driving loop continues normally with the next
event, so the failure is not fatal. -/
theorem cd_builtin_spec (home bad : List Nat) (fs : List Nat → Bool)
    (st : DirState) (hhome : fs home = true) (hbad : fs bad = false) :
    (∀ c : Command, c.cmd = cdName → c.argv = [cdName] →
      run_built_in_kind c = BuiltIn.CD ∧
      run_cd home fs c st = ({ cwd := home }, false)) ∧
    (∀ c : Command, c.cmd = cdName → c.argv = [cdName, bad] →
      run_built_in_kind c = BuiltIn.CD ∧
      (run_cd home fs c st).1 = st ∧ (run_cd home fs c st).2 = true) ∧
    (∀ (err : Int) (rest : List Event) (l : List Nat) (fk : Bool)
      (c : Command), run_built_in_kind c = BuiltIn.CD →
      (gen_command l = (CommandType.FOREGROUND, some c) ∨
        gen_command l = (CommandType.BACKGROUND, some c)) →
      runShell err (Event.inputLine l fk :: rest) = runShell err rest) := by
  refine ⟨?_, ?_, ?_⟩
  · intro c h1 h2
    obtain ⟨cm, av⟩ := c
    simp only [Command.mk.injEq] at h1 h2
    subst h1
    subst h2
    refine ⟨rfl, ?_⟩
    simp [run_cd, chdirModel, hhome]
  · intro c h1 h2
    obtain ⟨cm, av⟩ := c
    simp only [Command.mk.injEq] at h1 h2
    subst h1
    subst h2
    refine ⟨rfl, ?_, ?_⟩ <;> simp [run_cd, chdirModel, hbad]
  · intro err rest l fk c hcd hgen
    rcases hgen with hg | hg <;>
      (simp only [runShell]; rw [hg]; simp [hcd])

/-- Witness for the C8 theorem: home directory byte h, current directory
byte c, a file system holding only the home path; cd with no argument moves
to home, cd to the absent path b reports failure and leaves the directory
byte c in place. -/
theorem cd_builtin_spec_witness :
    (run_built_in_kind { cmd := cdName, argv := [cdName] } = BuiltIn.CD ∧
      run_cd [104] (fun q => q == [104]) { cmd := cdName, argv := [cdName] }
        { cwd := [99] } = ({ cwd := [104] }, false)) ∧
    (run_built_in_kind { cmd := cdName, argv := [cdName, [98]] } = BuiltIn.CD ∧
      (run_cd [104] (fun q => q == [104])
        { cmd := cdName, argv := [cdName, [98]] } { cwd := [99] }).1 =
        { cwd := [99] } ∧
      (run_cd [104] (fun q => q == [104])
        { cmd := cdName, argv := [cdName, [98]] } { cwd := [99] }).2 = true) := by
  have h := cd_builtin_spec [104] [98] (fun q => q == [104]) { cwd := [99] }
    rfl rfl
  exact ⟨h.1 _ rfl rfl, h.2.1 _ rfl rfl⟩

/-! Helper lemmas for the background-line correctness proof. -/

/-- A printable byte is nonzero. -/
theorem clean_ne_zero (c : Nat) (h : isprintB c = true ∨ isspaceB c = true) :
    c ≠ 0 := by
  rintro rfl
  rcases h with h | h <;> simp [isprintB, isspaceB] at h

/-- The strndup truncation is the identity on zero-free byte runs. -/
theorem takeWhile_ne_zero_eq (t : List Nat) (h : ∀ c ∈ t, c ≠ 0) :
    t.takeWhile (fun b => b != 0) = t := by
  rw [List.takeWhile_eq_self_iff]
  intro x hx
  simpa using h x hx

/-- The last element with default of an append is that of the nonempty right
part. -/
theorem getLastD_append_right (s r : List Nat) (h : r ≠ []) :
    (s ++ r).getLastD 0 = r.getLastD 0 := by
  rw [List.getLastD_eq_getLast?, List.getLastD_eq_getLast?,
    List.getLast?_append, List.getLast?_eq_getLast r h]
  rfl

/-- The last element with default of a nonempty list is a member. -/
theorem getLastD_mem (l : List Nat) (h : l ≠ []) : l.getLastD 0 ∈ l := by
  rw [List.getLastD_eq_getLast?, List.getLast?_eq_getLast l h]
  simp only [Option.getD_some]
  exact List.getLast_mem h

/-- The head of a nonempty dropWhile residue fails the predicate. -/
theorem dropWhile_head_prop (pred : Nat → Bool) : ∀ (l : List Nat) (d : Nat)
    (r2 : List Nat), l.dropWhile pred = d :: r2 → pred d = false := by
  intro l
  induction l with
  | nil => intro d r2 h; cases h
  | cons c l ih =>
    intro d r2 h
    rw [List.dropWhile_cons] at h
    by_cases hc : pred c = true
    · rw [if_pos hc] at h
      exact ih d r2 h
    · rw [if_neg hc] at h
      injection h with h1 h2
      subst h1
      simpa using hc

/-- The reference tokenizer passes over a whitespace-free run by loading it
into the accumulator. -/
theorem specTokensGo_append_nonsp (t : List Nat) : ∀ (cur r : List Nat),
    (∀ c ∈ t, isspaceB c = false) →
    specTokensGo cur (t ++ r) = specTokensGo (cur ++ t) r := by
  induction t with
  | nil => intro cur r _; simp
  | cons c t ih =>
    intro cur r h
    have hc : isspaceB c = false := h c (List.mem_cons_self c t)
    simp only [List.cons_append, specTokensGo]
    rw [if_neg (by simp [hc])]
    simp only [List.append_eq]
    rw [ih (cur ++ [c]) r (fun d hd => h d (List.mem_cons_of_mem c hd))]
    simp

/-- The reference tokenizer emits a loaded accumulator at whitespace or at
the end of the input. -/
theorem specTokensGo_emit (cur r : List Nat) (hcur : cur ≠ [])
    (hr : r = [] ∨ isspaceB (r.headD 0) = true) :
    specTokensGo cur r = cur :: specTokensGo [] r := by
  cases r with
  | nil => simp [specTokensGo, hcur]
  | cons d r2 =>
    rcases hr with h | h
    · exact absurd h (by simp)
    · have hd : isspaceB d = true := by simpa using h
      simp [specTokensGo, hd, hcur]

/-- The reference tokenizer with an empty accumulator skips leading
whitespace. -/
theorem specTokensGo_sp_skip (w : List Nat) : ∀ r : List Nat,
    (∀ c ∈ w, isspaceB c = true) →
    specTokensGo [] (w ++ r) = specTokensGo [] r := by
  induction w with
  | nil => intro r _; rfl
  | cons c w ih =>
    intro r h
    have hc : isspaceB c = true := h c (List.mem_cons_self c w)
    simp only [List.cons_append, specTokensGo, hc, if_pos rfl, if_true]
    exact ih r (fun d hd => h d (List.mem_cons_of_mem c hd))

/-- The reference tokenizer yields something when a non-space byte occurs or
the accumulator is loaded. -/
theorem specTokensGo_ne_nil (l : List Nat) : ∀ cur : List Nat,
    (cur ≠ [] ∨ ∃ c ∈ l, isspaceB c = false) → specTokensGo cur l ≠ [] := by
  induction l with
  | nil =>
    intro cur h
    rcases h with h | ⟨x, hx, _⟩
    · simp [specTokensGo, h]
    · cases hx
  | cons c l ih =>
    intro cur h
    simp only [specTokensGo]
    by_cases hc : isspaceB c = true
    · rw [if_pos hc]
      by_cases hcur : cur = []
      · rw [if_pos hcur]
        apply ih
        right
        rcases h with h | ⟨x, hx, hxs⟩
        · exact absurd hcur h
        · rcases List.mem_cons.mp hx with rfl | hxl
          · rw [hc] at hxs; cases hxs
          · exact ⟨x, hxl, hxs⟩
      · rw [if_neg hcur]
        simp
    · rw [if_neg hc]
      apply ih
      left
      simp

/-- Every token the reference tokenizer yields is nonempty, and its bytes
come from the accumulator or the input. -/
theorem specTokensGo_mem_sub (l : List Nat) : ∀ (cur t : List Nat),
    t ∈ specTokensGo cur l → t ≠ [] ∧ ∀ c ∈ t, c ∈ cur ∨ c ∈ l := by
  induction l with
  | nil =>
    intro cur t ht
    by_cases hcur : cur = []
    · simp [specTokensGo, hcur] at ht
    · simp only [specTokensGo, if_neg hcur, List.mem_singleton] at ht
      subst ht
      exact ⟨hcur, fun c hc => Or.inl hc⟩
  | cons c l ih =>
    intro cur t ht
    simp only [specTokensGo] at ht
    by_cases hc : isspaceB c = true
    · rw [if_pos hc] at ht
      by_cases hcur : cur = []
      · rw [if_pos hcur] at ht
        obtain ⟨hne, hsub⟩ := ih [] t ht
        refine ⟨hne, fun x hx => ?_⟩
        rcases hsub x hx with h | h
        · cases h
        · exact Or.inr (List.mem_cons_of_mem c h)
      · rw [if_neg hcur] at ht
        rcases List.mem_cons.mp ht with rfl | ht2
        · exact ⟨hcur, fun x hx => Or.inl hx⟩
        · obtain ⟨hne, hsub⟩ := ih [] t ht2
          refine ⟨hne, fun x hx => ?_⟩
          rcases hsub x hx with h | h
          · cases h
          · exact Or.inr (List.mem_cons_of_mem c h)
    · rw [if_neg hc] at ht
      obtain ⟨hne, hsub⟩ := ih (cur ++ [c]) t ht
      refine ⟨hne, fun x hx => ?_⟩
      rcases hsub x hx with h | h
      · rcases List.mem_append.mp h with h2 | h2
        · exact Or.inl h2
        · rcases List.mem_singleton.mp h2 with rfl
          exact Or.inr (List.mem_cons_self x l)
      · exact Or.inr (List.mem_cons_of_mem c h)

/-- One-step unfolding of the first scan on a nonempty line. -/
theorem scan1_cons (c : Nat) (rest : List Nat) (acc : Nat) :
    scan1 (c :: rest) acc =
      if ¬ isprintB c = true ∧ ¬ isspaceB c = true then none
      else if c = 38 then some (acc, true)
      else if (isspaceB (rest.headD 0) = true ∨ rest.headD 0 = 0) ∧
          ¬ isspaceB c = true then
        scan1 rest (acc + 1)
      else scan1 rest acc := rfl

/-- One-step unfolding of the second scan on a nonempty line. -/
theorem scan2_cons (c : Nat) (rest cur : List Nat) :
    scan2 (c :: rest) cur =
      if isspaceB c = true ∧ ¬ isspaceB (rest.headD 0) = true then
        scan2 rest []
      else if ¬ isspaceB c = true ∧
          (isspaceB (rest.headD 0) = true ∨ rest.headD 0 = 0) then
        ((cur ++ [c]).takeWhile (fun b => b != 0)) :: scan2 rest (cur ++ [c])
      else scan2 rest (cur ++ [c]) := rfl

/-- The first scan passes over a whitespace-free run of printable,
non-ampersand bytes, counting one token exactly when the byte after the run
is whitespace or NUL. -/
theorem scan1_token_skip (t : List Nat) : ∀ (rest : List Nat) (acc : Nat),
    t ≠ [] →
    (∀ c ∈ t, isprintB c = true ∧ isspaceB c = false ∧ c ≠ 38) →
    scan1 (t ++ rest) acc = scan1 rest
      (acc + (if isspaceB (rest.headD 0) = true ∨ rest.headD 0 = 0
        then 1 else 0)) := by
  induction t with
  | nil => intro rest acc h _; exact absurd rfl h
  | cons c t ih =>
    intro rest acc _ h
    obtain ⟨hcp, hcs, hc38⟩ := h c (List.mem_cons_self c t)
    cases t with
    | nil =>
      rw [List.cons_append, List.nil_append, scan1_cons]
      rw [if_neg (by simp [hcp]), if_neg hc38]
      by_cases hcond : isspaceB (rest.headD 0) = true ∨ rest.headD 0 = 0
      · rw [if_pos ⟨hcond, by simp [hcs]⟩, if_pos hcond]
      · rw [if_neg (fun hx => hcond hx.1), if_neg hcond, Nat.add_zero]
    | cons d t2 =>
      obtain ⟨hdp, hds, _⟩ := h d (by simp)
      have hd0 : d ≠ 0 := clean_ne_zero d (Or.inl hdp)
      rw [List.cons_append, scan1_cons]
      simp only [List.cons_append, List.headD_cons]
      rw [if_neg (by simp [hcp]), if_neg hc38, if_neg (by simp [hds, hd0])]
      have hih := ih rest acc (by simp) (fun x hx => h x (List.mem_cons_of_mem c hx))
      rw [List.cons_append] at hih
      exact hih

/-- The second scan passes over a whitespace run, resetting the token start
when the byte after the run is not whitespace. -/
theorem scan2_sp_skip (w : List Nat) : ∀ (rest cur : List Nat), w ≠ [] →
    (∀ c ∈ w, isspaceB c = true) → isspaceB (rest.headD 0) = false →
    scan2 (w ++ rest) cur = scan2 rest [] := by
  induction w with
  | nil => intro rest cur h _ _; exact absurd rfl h
  | cons c w ih =>
    intro rest cur _ h hrest
    have hc : isspaceB c = true := h c (List.mem_cons_self c w)
    cases w with
    | nil =>
      rw [List.cons_append, List.nil_append, scan2_cons,
        if_pos ⟨hc, by rw [hrest]; simp⟩]
    | cons d w2 =>
      have hd : isspaceB d = true := h d (by simp)
      rw [List.cons_append, scan2_cons]
      simp only [List.cons_append, List.headD_cons]
      rw [if_neg (by simp [hd]), if_neg (by simp [hc])]
      have hih := ih rest (cur ++ [c])
        (by simp) (fun x hx => h x (List.mem_cons_of_mem c hx)) hrest
      rw [List.cons_append] at hih
      exact hih

/-- The second scan consumes a whitespace-free zero-free run whose successor
byte is whitespace or NUL: the run is appended to the pending start bytes and
emitted through the strndup truncation. -/
theorem scan2_token (t : List Nat) : ∀ (rest cur : List Nat), t ≠ [] →
    (∀ c ∈ t, isspaceB c = false ∧ c ≠ 0) →
    (isspaceB (rest.headD 0) = true ∨ rest.headD 0 = 0) →
    scan2 (t ++ rest) cur =
      ((cur ++ t).takeWhile (fun b => b != 0)) :: scan2 rest (cur ++ t) := by
  induction t with
  | nil => intro rest cur h _ _; exact absurd rfl h
  | cons c t ih =>
    intro rest cur _ h hrest
    obtain ⟨hcs, hc0⟩ := h c (List.mem_cons_self c t)
    cases t with
    | nil =>
      rw [List.cons_append, List.nil_append, scan2_cons]
      rw [if_neg (by simp [hcs]), if_pos ⟨by simp [hcs], hrest⟩]
    | cons d t2 =>
      obtain ⟨hds, hd0⟩ := h d (by simp)
      rw [List.cons_append, scan2_cons]
      simp only [List.cons_append, List.headD_cons]
      rw [if_neg (by simp [hcs]), if_neg (by simp [hds, hd0])]
      have hrw := ih rest (cur ++ [c])
        (by simp) (fun x hx => h x (List.mem_cons_of_mem c hx)) hrest
      rw [List.cons_append] at hrw
      rw [hrw, List.append_assoc]
      rfl

/-- The last element with default of a nonempty cons tail. -/
theorem getLastD_cons_ne_nil (c : Nat) (p2 : List Nat) (h : p2 ≠ []) :
    (c :: p2).getLastD 0 = p2.getLastD 0 := by
  have hx := getLastD_append_right [c] p2 h
  simpa using hx

/-- On a line made of a clean prefix (printable or whitespace bytes, no
ampersand, ending in whitespace when nonempty) followed by an ampersand and
anything, the first scan stops at the ampersand with the background flag set
and counts exactly the whitespace-separated tokens of the prefix. -/
theorem scan1_line_spec (n : Nat) : ∀ (p ws : List Nat) (acc : Nat),
    p.length = n →
    (∀ c ∈ p, (isprintB c = true ∨ isspaceB c = true) ∧ c ≠ 38) →
    (p = [] ∨ isspaceB (p.getLastD 0) = true) →
    scan1 (p ++ 38 :: ws) acc = some (acc + (specTokens p).length, true) := by
  induction n using Nat.strong_induction_on with
  | _ n ih =>
    intro p ws acc hlen hclean hlast
    cases p with
    | nil =>
      rw [List.nil_append, scan1_cons, if_neg (by decide), if_pos rfl]
      simp [specTokens, specTokensGo]
    | cons c p2 =>
      by_cases hsp : isspaceB c = true
      · have hskip := scan1_sp_skip [c] (p2 ++ 38 :: ws) acc
          (by intro x hx; rcases List.mem_singleton.mp hx with rfl; exact hsp)
        have heq : (c :: p2) ++ 38 :: ws = [c] ++ (p2 ++ 38 :: ws) := by simp
        rw [heq, hskip]
        have hlast2 : p2 = [] ∨ isspaceB (p2.getLastD 0) = true := by
          cases p2 with
          | nil => exact Or.inl rfl
          | cons d p3 =>
            right
            rcases hlast with h | h
            · exact absurd h (by simp)
            · rw [getLastD_cons_ne_nil c (d :: p3) (by simp)] at h
              exact h
        have hrec := ih p2.length (by simp at hlen; omega) p2 ws acc rfl
          (fun x hx => hclean x (List.mem_cons_of_mem c hx)) hlast2
        rw [hrec]
        have hsk : specTokens (c :: p2) = specTokens p2 := by
          have hx := specTokensGo_sp_skip [c] p2
            (by intro x hxx; rcases List.mem_singleton.mp hxx with rfl; exact hsp)
          simpa [specTokens] using hx
        rw [hsk]
      · have htr : (c :: p2).takeWhile (fun b => !(isspaceB b)) ++
            (c :: p2).dropWhile (fun b => !(isspaceB b)) = c :: p2 :=
          List.takeWhile_append_dropWhile _ _
        have htne : (c :: p2).takeWhile (fun b => !(isspaceB b)) ≠ [] := by
          rw [List.takeWhile_cons, if_pos (by simp [hsp])]
          simp
        have htprop : ∀ x ∈ (c :: p2).takeWhile (fun b => !(isspaceB b)),
            isprintB x = true ∧ isspaceB x = false ∧ x ≠ 38 := by
          intro x hx
          have hsx : isspaceB x = false := by
            have hy := List.mem_takeWhile_imp hx
            simpa using hy
          have hcx := hclean x ((List.takeWhile_sublist _).subset hx)
          rcases hcx.1 with hp | hs
          · exact ⟨hp, hsx, hcx.2⟩
          · rw [hs] at hsx
            cases hsx
        have hline : (c :: p2) ++ 38 :: ws =
            (c :: p2).takeWhile (fun b => !(isspaceB b)) ++
            ((c :: p2).dropWhile (fun b => !(isspaceB b)) ++ 38 :: ws) := by
          rw [← List.append_assoc, htr]
        rw [hline, scan1_token_skip _ _ acc htne htprop]
        cases hrc : (c :: p2).dropWhile (fun b => !(isspaceB b)) with
        | nil =>
          exfalso
          have hpt : c :: p2 = (c :: p2).takeWhile (fun b => !(isspaceB b)) := by
            conv_lhs => rw [← htr, hrc, List.append_nil]
          rcases hlast with h | h
          · exact absurd h (by simp)
          · have hmem : (c :: p2).getLastD 0 ∈ c :: p2 :=
              getLastD_mem _ (by simp)
            rw [hpt] at hmem h
            have hz := (htprop _ hmem).2.1
            rw [hz] at h
            cases h
        | cons d r2 =>
          have hdsp : isspaceB d = true := by
            have hz := dropWhile_head_prop (fun b => !(isspaceB b)) (c :: p2)
              d r2 hrc
            simpa using hz
          simp only [List.cons_append, List.headD_cons]
          rw [if_pos (Or.inl hdsp)]
          have hlapp := congrArg List.length htr
          rw [hrc] at hlapp
          simp only [List.length_append, List.length_cons] at hlapp
          have htpos : 0 < ((c :: p2).takeWhile (fun b => !(isspaceB b))).length :=
            List.length_pos.mpr htne
          have hlenp : (c :: p2).length = n := hlen
          simp only [List.length_cons] at hlenp
          have hrlen : (d :: r2).length < n := by
            simp only [List.length_cons]
            omega
          have hlastr : d :: r2 = [] ∨ isspaceB ((d :: r2).getLastD 0) = true := by
            right
            rcases hlast with h | h
            · exact absurd h (by simp)
            · have he : (c :: p2).getLastD 0 = (d :: r2).getLastD 0 := by
                rw [← htr, hrc]
                exact getLastD_append_right _ (d :: r2) (by simp)
              rw [← he]
              exact h
          have hcleanr : ∀ x ∈ d :: r2,
              (isprintB x = true ∨ isspaceB x = true) ∧ x ≠ 38 := by
            intro x hx
            apply hclean
            apply (List.dropWhile_sublist (fun b => !(isspaceB b))).subset
            rw [hrc]
            exact hx
          have hrec := ih (d :: r2).length hrlen (d :: r2) ws (acc + 1) rfl
            hcleanr hlastr
          rw [List.cons_append] at hrec
          rw [hrec]
          have hspec : specTokens (c :: p2) =
              (c :: p2).takeWhile (fun b => !(isspaceB b)) ::
                specTokens (d :: r2) := by
            have h1 : specTokens (c :: p2) = specTokensGo []
                ((c :: p2).takeWhile (fun b => !(isspaceB b)) ++ (d :: r2)) := by
              conv_lhs => rw [specTokens, ← htr, hrc]
            rw [h1, specTokensGo_append_nonsp _ _ _
              (fun x hx => by simpa using (htprop x hx).2.1)]
            rw [List.nil_append]
            rw [specTokensGo_emit _ _ htne
              (Or.inr (by simp only [List.headD_cons]; exact hdsp))]
            rfl
          rw [hspec]
          simp only [List.length_cons]
          rw [show acc + 1 + (specTokens (d :: r2)).length =
            acc + ((specTokens (d :: r2)).length + 1) by omega]

/-- The second scan on an ampersand followed by whitespace emits exactly the
single-byte ampersand token. -/
theorem scan2_amp_tail (ws : List Nat) (hws : ∀ c ∈ ws, isspaceB c = true) :
    scan2 (38 :: ws) [] = [[38]] := by
  rw [scan2_cons]
  have hcond2 : (¬ isspaceB (38 : Nat) = true) ∧
      (isspaceB (ws.headD 0) = true ∨ ws.headD 0 = 0) := by
    refine ⟨by decide, ?_⟩
    cases ws with
    | nil => exact Or.inr rfl
    | cons w wr => exact Or.inl (hws w (by simp))
  rw [if_neg (fun hx => hcond2.1 hx.1), if_pos hcond2]
  simp only [List.nil_append]
  have hrest : scan2 ws [38] = [] := by
    cases ws with
    | nil => rfl
    | cons w wr =>
      have hx := scan2_sp_skip (w :: wr) [] [38] (by simp) hws (by decide)
      simpa using hx
  rw [hrest]
  rfl

/-- On a line made of a clean prefix (printable or whitespace bytes, no
ampersand, ending in whitespace when nonempty) followed by an ampersand and
trailing whitespace, the second scan produces exactly the
whitespace-separated tokens of the prefix followed by the single-byte
ampersand token. -/
theorem scan2_line_spec (n : Nat) : ∀ (p ws : List Nat), p.length = n →
    (∀ c ∈ p, (isprintB c = true ∨ isspaceB c = true) ∧ c ≠ 38) →
    (p = [] ∨ isspaceB (p.getLastD 0) = true) →
    (∀ c ∈ ws, isspaceB c = true) →
    scan2 (p ++ 38 :: ws) [] = specTokens p ++ [[38]] := by
  induction n using Nat.strong_induction_on with
  | _ n ih =>
    intro p ws hlen hclean hlast hws
    cases p with
    | nil =>
      rw [List.nil_append, scan2_amp_tail ws hws]
      rfl
    | cons c p2 =>
      by_cases hsp : isspaceB c = true
      · have htr : (c :: p2).takeWhile isspaceB ++
            (c :: p2).dropWhile isspaceB = c :: p2 :=
          List.takeWhile_append_dropWhile _ _
        have hwne : (c :: p2).takeWhile isspaceB ≠ [] := by
          rw [List.takeWhile_cons, if_pos hsp]
          simp
        have hwprop : ∀ x ∈ (c :: p2).takeWhile isspaceB, isspaceB x = true :=
          fun x hx => List.mem_takeWhile_imp hx
        have hline : (c :: p2) ++ 38 :: ws =
            (c :: p2).takeWhile isspaceB ++
              ((c :: p2).dropWhile isspaceB ++ 38 :: ws) := by
          rw [← List.append_assoc, htr]
        cases hrc : (c :: p2).dropWhile isspaceB with
        | nil =>
          have hpt : c :: p2 = (c :: p2).takeWhile isspaceB := by
            conv_lhs => rw [← htr, hrc, List.append_nil]
          rw [hline, hrc, List.nil_append]
          rw [scan2_sp_skip _ _ _ hwne hwprop
              (by rw [List.headD_cons]; decide),
            scan2_amp_tail ws hws]
          have hspec : specTokens (c :: p2) = [] := by
            have hall : ∀ x ∈ c :: p2, isspaceB x = true := by
              intro x hx
              rw [hpt] at hx
              exact hwprop x hx
            have hx := specTokensGo_sp_skip (c :: p2) [] hall
            rw [List.append_nil] at hx
            rw [specTokens, hx]
            rfl
          rw [hspec]
          rfl
        | cons d r2 =>
          have hdsp : isspaceB d = false :=
            dropWhile_head_prop isspaceB (c :: p2) d r2 hrc
          rw [hline, hrc]
          rw [scan2_sp_skip _ _ _ hwne hwprop
            (by simp only [List.cons_append, List.headD_cons]; exact hdsp)]
          have hlapp := congrArg List.length htr
          rw [hrc] at hlapp
          simp only [List.length_append, List.length_cons] at hlapp
          have hwpos : 0 < ((c :: p2).takeWhile isspaceB).length :=
            List.length_pos.mpr hwne
          have hlenp : p2.length + 1 = n := by simpa using hlen
          have hrlen : (d :: r2).length < n := by
            simp only [List.length_cons]
            omega
          have hlastr : d :: r2 = [] ∨
              isspaceB ((d :: r2).getLastD 0) = true := by
            right
            rcases hlast with h | h
            · exact absurd h (by simp)
            · have he : (c :: p2).getLastD 0 = (d :: r2).getLastD 0 := by
                conv_lhs => rw [← htr, hrc]
                exact getLastD_append_right _ (d :: r2) (by simp)
              rw [← he]
              exact h
          have hcleanr : ∀ x ∈ d :: r2,
              (isprintB x = true ∨ isspaceB x = true) ∧ x ≠ 38 := by
            intro x hx
            apply hclean
            apply (List.dropWhile_sublist isspaceB).subset
            rw [hrc]
            exact hx
          have hrec := ih (d :: r2).length hrlen (d :: r2) ws rfl
            hcleanr hlastr hws
          rw [List.cons_append] at hrec
          rw [List.cons_append, hrec]
          have hspec : specTokens (c :: p2) = specTokens (d :: r2) := by
            have hx := specTokensGo_sp_skip ((c :: p2).takeWhile isspaceB)
              (d :: r2) hwprop
            conv_lhs => rw [specTokens, ← htr, hrc]
            rw [hx]
            rfl
          rw [hspec]
      · have htr : (c :: p2).takeWhile (fun b => !(isspaceB b)) ++
            (c :: p2).dropWhile (fun b => !(isspaceB b)) = c :: p2 :=
          List.takeWhile_append_dropWhile _ _
        have htne : (c :: p2).takeWhile (fun b => !(isspaceB b)) ≠ [] := by
          rw [List.takeWhile_cons, if_pos (by simp [hsp])]
          simp
        have htprop : ∀ x ∈ (c :: p2).takeWhile (fun b => !(isspaceB b)),
            isspaceB x = false ∧ x ≠ 0 := by
          intro x hx
          have hsx : isspaceB x = false := by
            have hy := List.mem_takeWhile_imp hx
            simpa using hy
          have hcx := hclean x ((List.takeWhile_sublist _).subset hx)
          rcases hcx.1 with hp | hs
          · exact ⟨hsx, clean_ne_zero x (Or.inl hp)⟩
          · rw [hs] at hsx
            cases hsx
        have hline : (c :: p2) ++ 38 :: ws =
            (c :: p2).takeWhile (fun b => !(isspaceB b)) ++
              ((c :: p2).dropWhile (fun b => !(isspaceB b)) ++ 38 :: ws) := by
          rw [← List.append_assoc, htr]
        cases hrc : (c :: p2).dropWhile (fun b => !(isspaceB b)) with
        | nil =>
          exfalso
          have hpt : c :: p2 = (c :: p2).takeWhile (fun b => !(isspaceB b)) := by
            conv_lhs => rw [← htr, hrc, List.append_nil]
          rcases hlast with h | h
          · exact absurd h (by simp)
          · have hmem : (c :: p2).getLastD 0 ∈ c :: p2 :=
              getLastD_mem _ (by simp)
            rw [hpt] at hmem h
            have hz := (htprop _ hmem).1
            rw [hz] at h
            cases h
        | cons d r2 =>
          have hdsp : isspaceB d = true := by
            have hz := dropWhile_head_prop (fun b => !(isspaceB b)) (c :: p2)
              d r2 hrc
            simpa using hz
          rw [hline, hrc]
          rw [scan2_token _ _ [] htne htprop
            (by simp only [List.cons_append, List.headD_cons]
                exact Or.inl hdsp)]
          simp only [List.nil_append]
          rw [takeWhile_ne_zero_eq _ (fun x hx => (htprop x hx).2)]
          have hlapp := congrArg List.length htr
          rw [hrc] at hlapp
          simp only [List.length_append, List.length_cons] at hlapp
          have htpos : 0 <
              ((c :: p2).takeWhile (fun b => !(isspaceB b))).length :=
            List.length_pos.mpr htne
          have hlenp : p2.length + 1 = n := by simpa using hlen
          have hcleanr : ∀ x ∈ d :: r2,
              (isprintB x = true ∨ isspaceB x = true) ∧ x ≠ 38 := by
            intro x hx
            apply hclean
            apply (List.dropWhile_sublist (fun b => !(isspaceB b))).subset
            rw [hrc]
            exact hx
          have hlastdr : isspaceB ((d :: r2).getLastD 0) = true := by
            rcases hlast with h | h
            · exact absurd h (by simp)
            · have he : (c :: p2).getLastD 0 = (d :: r2).getLastD 0 := by
                conv_lhs => rw [← htr, hrc]
                exact getLastD_append_right _ (d :: r2) (by simp)
              rw [← he]
              exact h
          have hspec1 : specTokens (c :: p2) =
              (c :: p2).takeWhile (fun b => !(isspaceB b)) ::
                specTokens (d :: r2) := by
            have h1 : specTokens (c :: p2) = specTokensGo []
                ((c :: p2).takeWhile (fun b => !(isspaceB b)) ++ (d :: r2)) := by
              conv_lhs => rw [specTokens, ← htr, hrc]
            rw [h1, specTokensGo_append_nonsp _ _ _
              (fun x hx => (htprop x hx).1)]
            rw [List.nil_append]
            rw [specTokensGo_emit _ _ htne
              (Or.inr (by simp only [List.headD_cons]; exact hdsp))]
            rfl
          have htr2 : (d :: r2).takeWhile isspaceB ++
              (d :: r2).dropWhile isspaceB = d :: r2 :=
            List.takeWhile_append_dropWhile _ _
          have hw2ne : (d :: r2).takeWhile isspaceB ≠ [] := by
            rw [List.takeWhile_cons, if_pos hdsp]
            simp
          have hw2prop : ∀ x ∈ (d :: r2).takeWhile isspaceB,
              isspaceB x = true := fun x hx => List.mem_takeWhile_imp hx
          have hline2 : (d :: r2) ++ 38 :: ws =
              (d :: r2).takeWhile isspaceB ++
                ((d :: r2).dropWhile isspaceB ++ 38 :: ws) := by
            rw [← List.append_assoc, htr2]
          rw [hline2]
          cases hrc3 : (d :: r2).dropWhile isspaceB with
          | nil =>
            have hpt2 : d :: r2 = (d :: r2).takeWhile isspaceB := by
              conv_lhs => rw [← htr2, hrc3, List.append_nil]
            rw [List.nil_append]
            rw [scan2_sp_skip _ _ _ hw2ne hw2prop
                (by rw [List.headD_cons]; decide),
              scan2_amp_tail ws hws]
            have hspec2 : specTokens (d :: r2) = [] := by
              have hall2 : ∀ x ∈ d :: r2, isspaceB x = true := by
                intro x hx
                rw [hpt2] at hx
                exact hw2prop x hx
              have hx := specTokensGo_sp_skip (d :: r2) [] hall2
              rw [List.append_nil] at hx
              rw [specTokens, hx]
              rfl
            rw [hspec1, hspec2]
            rfl
          | cons e r4 =>
            have hesp : isspaceB e = false :=
              dropWhile_head_prop isspaceB (d :: r2) e r4 hrc3
            rw [scan2_sp_skip _ _ _ hw2ne hw2prop
              (by simp only [List.cons_append, List.headD_cons]; exact hesp)]
            have hlapp2 := congrArg List.length htr2
            rw [hrc3] at hlapp2
            simp only [List.length_append, List.length_cons] at hlapp2
            have hw2pos : 0 < ((d :: r2).takeWhile isspaceB).length :=
              List.length_pos.mpr hw2ne
            have hrlen2 : (e :: r4).length < n := by
              simp only [List.length_cons]
              omega
            have hcleanr2 : ∀ x ∈ e :: r4,
                (isprintB x = true ∨ isspaceB x = true) ∧ x ≠ 38 := by
              intro x hx
              apply hcleanr
              apply (List.dropWhile_sublist isspaceB).subset
              rw [hrc3]
              exact hx
            have hlastr2 : e :: r4 = [] ∨
                isspaceB ((e :: r4).getLastD 0) = true := by
              right
              have he2 : (d :: r2).getLastD 0 = (e :: r4).getLastD 0 := by
                conv_lhs => rw [← htr2, hrc3]
                exact getLastD_append_right _ (e :: r4) (by simp)
              rw [← he2]
              exact hlastdr
            have hrec := ih (e :: r4).length hrlen2 (e :: r4) ws rfl
              hcleanr2 hlastr2 hws
            rw [List.cons_append] at hrec
            rw [List.cons_append, hrec]
            have hspec3 : specTokens (d :: r2) = specTokens (e :: r4) := by
              have hx := specTokensGo_sp_skip ((d :: r2).takeWhile isspaceB)
                (e :: r4) hw2prop
              conv_lhs => rw [specTokens, ← htr2, hrc3]
              rw [hx]
              rfl
            rw [hspec1, hspec3]
            rfl

/-- Claim C1 (amended): for every input line whose trailing non-space token
is exactly the ampersand, preceded by at least one other token, and in which
every byte before the marker is printable or whitespace and none is an
ampersand (the scan stops at the first ampersand and fails on the first bad
byte, so these two exclusions are forced by the counterexample), gen_command
classifies the line background-command, and the Command argv up to its NULL
sentinel is exactly the whitespace-separated tokens before the marker: it
contains all of them and does not contain the ampersand token, which the
final NULL write at argv[num_args] overwrites. -/
theorem gen_command_background_spec (pre ws : List Nat)
    (_hne : pre ≠ [])
    (hclean : ∀ c ∈ pre, (isprintB c = true ∨ isspaceB c = true) ∧ c ≠ 38)
    (htok : ∃ c ∈ pre, isspaceB c = false)
    (hlast : isspaceB (pre.getLastD 0) = true)
    (hws : ∀ c ∈ ws, isspaceB c = true) :
    gen_command (pre ++ 38 :: ws) =
      (CommandType.BACKGROUND,
        some { cmd := (specTokens pre).headD [], argv := specTokens pre }) ∧
    [38] ∉ specTokens pre ∧ specTokens pre ≠ [] := by
  have h1 := scan1_line_spec pre.length pre ws 0 rfl hclean (Or.inr hlast)
  have h2 := scan2_line_spec pre.length pre ws rfl hclean (Or.inr hlast) hws
  have hnn : specTokens pre ≠ [] := specTokensGo_ne_nil pre [] (Or.inr htok)
  have hlp : 0 < (specTokens pre).length := List.length_pos.mpr hnn
  have hnotin : [38] ∉ specTokens pre := by
    intro hmem
    have hsub := (specTokensGo_mem_sub pre [] [38] hmem).2 38 (by simp)
    rcases hsub with h | h
    · cases h
    · exact (hclean 38 h).2 rfl
  refine ⟨?_, hnotin, hnn⟩
  rw [Nat.zero_add] at h1
  simp only [gen_command, h1]
  rw [if_neg (by omega)]
  rw [h2]
  have htake : (specTokens pre ++ [[38]]).take (specTokens pre).length =
      specTokens pre := List.take_left _ _
  have hhead : (specTokens pre ++ [[38]]).headD [] =
      (specTokens pre).headD [] := by
    cases hs : specTokens pre with
    | nil => exact absurd hs hnn
    | cons a b => rfl
  rw [htake, hhead, if_pos trivial]

/-- Witness for the amended C1 theorem at the concrete line "ls &\n". -/
theorem gen_command_background_spec_witness :
    gen_command [108, 115, 32, 38, 10] =
      (CommandType.BACKGROUND,
        some { cmd := [108, 115], argv := [[108, 115]] }) ∧
    [38] ∉ ([[108, 115]] : List (List Nat)) ∧
      ([[108, 115]] : List (List Nat)) ≠ [] := by
  have h := gen_command_background_spec [108, 115, 32] [10] (by decide)
    (by decide) ⟨108, by decide, by decide⟩ (by decide) (by decide)
  exact h
